import Mathlib

/-!
# Verification of the Red-GitHubBot issue-reference and mention parser

This file is a shallow embedding, in Lean 4, of the issue parser found in
`red_githubbot/issue_parser/` (`actions.py`, `_regexes.py`, `wrappers.py`,
`_parser.py`), together with proofs of the specified properties.

Modelling conventions:

* Scanner-side strings are `List Char`; the regular expressions of
  `_regexes.py` are translated into priority-ordered candidate enumerators
  (each pattern element becomes a function returning the list of possible
  `(capture, rest-of-input)` outcomes in exactly the order the backtracking
  regex engine would try them; the overall match is the head of that list).
  This models the leftmost, alternation-ordered, greedy matching semantics of
  Python's `regex` module.
* Character classes (`\w`, `\d`) and case-insensitivity (`IGNORECASE`,
  `str.lower`) are modelled over the ASCII range, which covers every
  configured keyword and every literal in the patterns.
* Python `dict` objects are modelled as association lists in insertion
  order; a `KeyError` is modelled by `Option`: every function that can raise
  returns `none` in that case, and `none` propagates.
* The markdown node tree produced by the external markdown library is the
  parser's input (spec §2: "raw body text → external markdown-to-node-tree
  conversion → node walker").
-/

namespace RedBot

/-! ## Character classes (`_regexes.py` character classes, ASCII model) -/

/-- Python's `\w` (word character), restricted to the ASCII range:
letters, digits and underscore. -/
def isWordChar (c : Char) : Bool :=
  c.isAlphanum || c == '_'

/-- The character class `[\w\-\.]` used for slug segments and mention
usernames. -/
def isSlugChar (c : Char) : Bool :=
  isWordChar c || c == '-' || c == '.'

/-- Horizontal whitespace `(?:\ |\t)` of the keyword-delimiter rule. -/
def isHSpace (c : Char) : Bool :=
  c == ' ' || c == '\t'

/-- `(?!\w)`: the lookahead that forbids a word character right after the
issue number. -/
def noWordAhead : List Char → Bool
  | [] => true
  | c :: _ => !(isWordChar c)

/-- `int(...)` on a captured run of decimal digits. -/
def digitsToNat (ds : List Char) : Nat :=
  ds.foldl (fun n c => n * 10 + (c.toNat - '0'.toNat)) 0

/-! ## The action table (`actions.py`) -/

/-- `ACTIONS` from `actions.py`: canonical action name ↦ keyword spellings. -/
def ACTIONS : List (String × List String) :=
  [("close",
    ["close", "closes", "closed",
     "fix", "fixes", "fixed",
     "resolve", "resolves", "resolved"])]

/-- `KEYWORDS` from `actions.py`: the inverse mapping, keyword ↦ action name,
in the insertion order of the dict comprehension. -/
def KEYWORDS : List (String × String) :=
  ACTIONS.flatMap fun p => p.2.map fun k => (k, p.1)

/-- `KEYWORDS` with its keys as character lists, for the scanner. -/
def KEYWORD_TABLE : List (List Char × String) :=
  KEYWORDS.map fun p => (p.1.data, p.2)

/-- The keyword spellings, in the order the alternation
`(?P<keyword_name>{'|'.join(map(regex.escape, KEYWORDS))})` tries them. -/
def KEYWORD_PATTERNS : List (List Char) :=
  KEYWORD_TABLE.map Prod.fst

/-- The configured action names, `ACTIONS.keys()`. -/
def ACTION_NAMES : List String :=
  ACTIONS.map Prod.fst

/-! ## Case-insensitive literal matching (the `IGNORECASE` flag) -/

/-- Match the literal `pat` case-insensitively as a prefix of `s`, returning
the consumed input characters and the rest.  ASCII model of the engine's
case folding. -/
def ciPrefix : List Char → List Char → Option (List Char × List Char)
  | [], s => some ([], s)
  | _ :: _, [] => none
  | k :: ks, c :: cs =>
    if c.toLower == k.toLower then
      (ciPrefix ks cs).map fun p => (c :: p.1, p.2)
    else
      none

/-! ## Greedy repetition

`runSplits p s` enumerates the outcomes of the greedy `[p]+` applied to `s`,
longest first, exactly as the backtracking engine would:
each element is `(consumed, rest)`. -/

def runSplits (p : Char → Bool) : List Char → List (List Char × List Char)
  | [] => []
  | c :: rest =>
    if p c then
      ((runSplits p rest).map fun q => (c :: q.1, q.2)) ++ [([c], rest)]
    else
      []

/-- Outcomes of the greedy `[p]*`, longest first (the empty consumption
last). -/
def starSplits (p : Char → Bool) (s : List Char) : List (List Char × List Char) :=
  runSplits p s ++ [([], s)]

/-! ## The partial patterns of `_regexes.py` -/

/-- Outcomes of the keyword alternation
`(?P<keyword_name>close|closes|...)`, in alternation order;
the captured text keeps its original case. -/
def keywordAltCandidates (s : List Char) : List (List Char × List Char) :=
  KEYWORD_PATTERNS.flatMap fun kw => (ciPrefix kw s).toList

/-- Outcomes (rests) of the keyword-delimiter
`(?:\ |\t)*(?:\ |\t|:)(?:\ |\t)*`, in backtracking order. -/
def delimCandidates (s : List Char) : List (List Char) :=
  (starSplits isHSpace s).flatMap fun q =>
    match q.2 with
    | c :: s2 =>
      if c == ' ' || c == '\t' || c == ':' then
        (starSplits isHSpace s2).map Prod.snd
      else
        []
    | [] => []

/-- Outcomes of the whole `_KEYWORD_PATTERN` (keyword followed by its
delimiter): captured keyword text and rest. -/
def keywordCandidates (s : List Char) : List (List Char × List Char) :=
  (keywordAltCandidates s).flatMap fun p =>
    (delimCandidates p.2).map fun r => (p.1, r)

/-- Outcomes of `{_KEYWORD_PATTERN}?` (greedy optional): keyword present
first, absent last. -/
def keywordOptCandidates (s : List Char) : List (Option (List Char) × List Char) :=
  ((keywordCandidates s).map fun p => (some p.1, p.2)) ++ [(none, s)]

/-- The literal `https://github.com/`. -/
def GITHUB_URL : List Char := "https://github.com/".data

/-- Outcomes of the slug `[\w\-\.]+/[\w\-\.]+`: captured slug text and
rest, in backtracking order (both segments greedy). -/
def slugCandidates (s : List Char) : List (List Char × List Char) :=
  (runSplits isSlugChar s).flatMap fun p =>
    match p.2 with
    | '/' :: s2 =>
      (runSplits isSlugChar s2).map fun q => (p.1 ++ '/' :: q.1, q.2)
    | _ => []

/-- Outcomes (rests) of `(?:issues|pull)/`. -/
def issuesPullCandidates (s : List Char) : List (List Char) :=
  ((ciPrefix "issues".data s).toList ++ (ciPrefix "pull".data s).toList).filterMap
    fun p =>
      match p.2 with
      | '/' :: s2 => some s2
      | _ => none

/-- First alternative of the issue prefix in `_AUTO_REF_PATTERN`:
`(?:https://github\.com/)? (?P<slug>[\w\-\.]+/[\w\-\.]+)/ (?:issues|pull)/`.
Outcomes carry the captured slug. -/
def urlBranchCandidates (s : List Char) : List (Option (List Char) × List Char) :=
  (((ciPrefix GITHUB_URL s).toList.map Prod.snd) ++ [s]).flatMap fun s1 =>
    (slugCandidates s1).flatMap fun p =>
      match p.2 with
      | '/' :: s3 => (issuesPullCandidates s3).map fun s4 => (some p.1, s4)
      | _ => []

/-- Second alternative of the issue prefix:
`(?P<slug>[\w\-\.]+/[\w\-\.]+)? (?:\#|gh-)`. -/
def hashBranchCandidates (s : List Char) : List (Option (List Char) × List Char) :=
  (((slugCandidates s).map (fun p => (some p.1, p.2))) ++
      ([(none, s)] : List (Option (List Char) × List Char))).flatMap
    fun q =>
      ((match q.2 with
        | '#' :: r => [r]
        | _ => []) ++ ((ciPrefix "gh-".data q.2).toList.map Prod.snd)).map
        fun s2 => (q.1, s2)

/-- Outcomes of the whole issue prefix, first alternative first. -/
def prefixCandidates (s : List Char) : List (Option (List Char) × List Char) :=
  urlBranchCandidates s ++ hashBranchCandidates s

/-- The named captures of one `_AUTO_REF_PATTERN` match. -/
structure AutoRefMatch where
  keyword_name : Option (List Char)
  slug : Option (List Char)
  issue_number : List Char
  deriving DecidableEq

/-- Outcomes of the whole `_AUTO_REF_PATTERN` (optional keyword, issue
prefix, digit run, `(?!\w)` lookahead), in backtracking order. -/
def autoRefCandidates (s : List Char) : List (AutoRefMatch × List Char) :=
  (keywordOptCandidates s).flatMap fun kq =>
    (prefixCandidates kq.2).flatMap fun sq =>
      (runSplits Char.isDigit sq.2).filterMap fun dq =>
        if noWordAhead dq.2 then
          some (⟨kq.1, sq.1, dq.1⟩, dq.2)
        else
          none

/-- One match of `TEXT_RE`: either an auto-reference or a mention. -/
inductive RawMatch where
  | autoRef (m : AutoRefMatch)
  | mention (username : List Char)
  deriving DecidableEq

/-- Outcomes of `_MENTION_PATTERN` = `@(?P<mention>[\w\-\.]+)`. -/
def mentionCandidates (s : List Char) : List (RawMatch × List Char) :=
  match s with
  | '@' :: r => (runSplits isSlugChar r).map fun q => (.mention q.1, q.2)
  | _ => []

/-- Outcomes of the boundary `(?:[^\w\n\v\r]|^)`: consume one
non-word, non-newline character, or (`^`) match empty when at the start of
a line (`MULTILINE`) respectively the start of the string.  The flag
`atCaret` says whether `^` applies at this position. -/
def boundaryCandidates (atCaret : Bool) (s : List Char) : List (List Char) :=
  (match s with
   | c :: r =>
     if !(isWordChar c) && c != '\n' && c != '\x0b' && c != '\r' then [r] else []
   | [] => []) ++ (if atCaret then [s] else [])

/-- All outcomes of `TEXT_RE` at one position, in backtracking order:
boundary, then `_AUTO_REF_PATTERN` before `_MENTION_PATTERN`. -/
def textMatchCandidates (atCaret : Bool) (s : List Char) : List (RawMatch × List Char) :=
  (boundaryCandidates atCaret s).flatMap fun s1 =>
    ((autoRefCandidates s1).map fun p => (RawMatch.autoRef p.1, p.2)) ++
      mentionCandidates s1

/-- `TEXT_RE.finditer`: repeatedly take the leftmost match (scanning
candidate start positions left to right; at each position the engine's
preferred match is the head of `textMatchCandidates`) and resume right
after its end.  `atCaret` tracks whether the current position follows a
`\n` or is the start of the string (`MULTILINE` `^`).  The fuel starts at
the length of the string; every step consumes at least one character, so it
never runs out. -/
def finditerGo : Nat → Bool → List Char → List RawMatch
  | 0, _, _ => []
  | _ + 1, _, [] => []
  | fuel + 1, atCaret, c :: rest =>
    match (textMatchCandidates atCaret (c :: rest)).head? with
    | some (m, rest') =>
      let consumed := (c :: rest).take ((c :: rest).length - rest'.length)
      m :: finditerGo fuel (consumed.getLast? == some '\n') rest'
    | none => finditerGo fuel (c == '\n') rest

/-- `TEXT_RE.finditer(text)`. -/
def finditer (s : List Char) : List RawMatch :=
  finditerGo s.length true s

/-! ## `ISSUE_URL_RE` (anchored at the start, `regex.match`) -/

/-- The named captures of an `ISSUE_URL_RE` match. -/
structure IssueUrlMatch where
  slug : List Char
  issue_number : List Char
  deriving DecidableEq

/-- All outcomes of `ISSUE_URL_RE` anchored at the start of `s`:
`^(?:https://github\.com/)(?P<slug>...)/(?:issues|pull)/(?P<issue_number>\d+)(?!\w)`;
the end of the string is not anchored. -/
def issueUrlCandidates (s : List Char) : List IssueUrlMatch :=
  ((ciPrefix GITHUB_URL s).toList.map Prod.snd).flatMap fun s1 =>
    (slugCandidates s1).flatMap fun p =>
      match p.2 with
      | '/' :: s3 =>
        (issuesPullCandidates s3).flatMap fun s4 =>
          (runSplits Char.isDigit s4).filterMap fun dq =>
            if noWordAhead dq.2 then some ⟨p.1, dq.1⟩ else none
      | _ => []

/-- `ISSUE_URL_RE.match(link)`. -/
def issueUrlMatch (s : List Char) : Option IssueUrlMatch :=
  (issueUrlCandidates s).head?

/-! ## `KEYWORD_RE` (`.search`, end-anchored, no `MULTILINE`) -/

/-- `$` without `MULTILINE`: end of string, or just before a final
newline. -/
def endAnchor (s : List Char) : Bool :=
  s.isEmpty || s == ['\n']

/-- The engine's preferred `KEYWORD_RE` match at one position:
boundary (`^` only at the true start), `_KEYWORD_PATTERN`, `$`. -/
def kwSearchAt (atStart : Bool) (s : List Char) : Option (List Char) :=
  ((boundaryCandidates atStart s).flatMap fun s1 =>
    (keywordCandidates s1).filterMap fun p =>
      if endAnchor p.2 then some p.1 else none).head?

/-- `KEYWORD_RE.search`: leftmost match, scanning positions left to
right. -/
def kwSearchGo (atStart : Bool) : List Char → Option (List Char)
  | [] => kwSearchAt atStart []
  | c :: rest =>
    match kwSearchAt atStart (c :: rest) with
    | some kw => some kw
    | none => kwSearchGo false rest

/-- `KEYWORD_RE.search(text)` returning the `keyword_name` capture. -/
def kwSearch (s : List Char) : Option (List Char) :=
  kwSearchGo true s

/-! ## The result wrappers (`wrappers.py`) -/

/-- `ParsedIssueFragment` and its three concrete variants
(`ParsedIssueRef`, `ParsedIssueAction`, `ParsedIssueMention`): a tagged
union, since the lists of a `ParsedIssue` hold them mixed. -/
inductive ParsedIssueFragment where
  | ref (slug : Option String) (issue_number : Nat)
  | action (slug : Option String) (issue_number : Nat) (action : String)
  | mention (username : String)
  deriving DecidableEq

/-- Is this fragment a `ParsedIssueRef` (which includes every
`ParsedIssueAction`, a subclass)? -/
def ParsedIssueFragment.isRefOrAction : ParsedIssueFragment → Bool
  | .ref _ _ => true
  | .action _ _ _ => true
  | .mention _ => false

/-- Is this fragment a `ParsedIssueMention`? -/
def ParsedIssueFragment.isMentionFragment : ParsedIssueFragment → Bool
  | .mention _ => true
  | _ => false

/-- The `slug` attribute of a `ParsedIssueRef`/`ParsedIssueAction`
(a mention has none). -/
def ParsedIssueFragment.slugOf : ParsedIssueFragment → Option String
  | .ref slug _ => slug
  | .action slug _ _ => slug
  | .mention _ => none

/-- `ParsedIssue` from `wrappers.py`: the five views of the result.
`actions` is a `dict[str, list[ParsedIssueAction]]`, modelled as an
association list in key-insertion order. -/
structure ParsedIssue where
  actions : List (String × List ParsedIssueFragment)
  refs : List ParsedIssueFragment
  refs_and_actions : List ParsedIssueFragment
  mentions : List ParsedIssueFragment
  fragments : List ParsedIssueFragment
  deriving DecidableEq

/-- `ParsedIssue(ACTIONS.keys())`: a fresh result whose `__post_init__`
pre-populates `actions` with an empty list for every configured action
name. -/
def ParsedIssue.init : ParsedIssue :=
  { actions := ACTION_NAMES.map fun a => (a, [])
    refs := []
    refs_and_actions := []
    mentions := []
    fragments := [] }

/-- `issue.actions[action].append(ref)`: append to the list at `key`,
or raise `KeyError` (`none`) if the key is absent. -/
def appendAction (m : List (String × List ParsedIssueFragment)) (key : String)
    (v : ParsedIssueFragment) : Option (List (String × List ParsedIssueFragment)) :=
  match m with
  | [] => none
  | (k, l) :: rest =>
    if k == key then
      some ((k, l ++ [v]) :: rest)
    else
      (appendAction rest key v).map fun rest' => (k, l) :: rest'

/-! ## The parser (`_parser.py`) -/

/-- `_append_parsed_ref`: convert one auto-reference match into a fragment
and file it.  `none` models the two possible `KeyError`s (unknown keyword
in `KEYWORDS`, unknown action name in `issue.actions`). -/
def _append_parsed_ref (issue : ParsedIssue) (slug : Option (List Char))
    (issue_number_digits : List Char) (keyword_name : Option (List Char)) :
    Option ParsedIssue :=
  let issue_number : Nat := digitsToNat issue_number_digits
  let slugStr : Option String := slug.map String.mk
  match keyword_name with
  | none =>
    let ref : ParsedIssueFragment := .ref slugStr issue_number
    some { issue with
            refs := issue.refs ++ [ref]
            fragments := issue.fragments ++ [ref]
            refs_and_actions := issue.refs_and_actions ++ [ref] }
  | some kw =>
    -- `action = KEYWORDS[keyword_name.lower()]`
    match List.lookup (kw.map Char.toLower) KEYWORD_TABLE with
    | none => none
    | some action =>
      let ref : ParsedIssueFragment := .action slugStr issue_number action
      match appendAction issue.actions action ref with
      | none => none
      | some acts =>
        some { issue with
                actions := acts
                fragments := issue.fragments ++ [ref]
                refs_and_actions := issue.refs_and_actions ++ [ref] }

/-- The body of the `_parse_text` loop: file one `TEXT_RE` match, either a
mention fragment or an auto-reference. -/
def _parse_text_step (issue : ParsedIssue) (m : RawMatch) : Option ParsedIssue :=
  match m with
  | .mention username =>
    let fragment : ParsedIssueFragment := .mention (String.mk username)
    some { issue with
            fragments := issue.fragments ++ [fragment]
            mentions := issue.mentions ++ [fragment] }
  | .autoRef m => _append_parsed_ref issue m.slug m.issue_number m.keyword_name

/-- `_parse_text`: iterate the `TEXT_RE` matches of one text, filing a
mention fragment or an auto-reference for each. -/
def _parse_text (issue : ParsedIssue) (text : List Char) : Option ParsedIssue :=
  (finditer text).foldlM _parse_text_step issue

/-- A markdown node as produced by the external markdown-to-AST library:
a `type` tag, optional inline `text`, a `link` target (meaningful for
link-type nodes only) and a list of `children`. -/
inductive Node where
  | mk (ntype : String) (text : Option String) (link : String) (children : List Node)

/-- The node's `"type"` value. -/
def Node.ntype : Node → String
  | .mk t _ _ _ => t

/-- The node's `"text"` value (`node.get("text")`). -/
def Node.text : Node → Option String
  | .mk _ t _ _ => t

/-- The node's `"link"` value (the URL target of a link node). -/
def Node.link : Node → String
  | .mk _ _ l _ => l

/-- The node's `"children"` value. -/
def Node.children : Node → List Node
  | .mk _ _ _ c => c

/-- `_parse_link`: match the link target against `ISSUE_URL_RE`; on a
match, look the triggering keyword up in the previous sibling's text when
that sibling is a plain-text node, and file the reference. -/
def _parse_link (issue : ParsedIssue) (previous_node : Option Node) (node : Node) :
    Option ParsedIssue :=
  match issueUrlMatch node.link.data with
  | none => some issue
  | some m =>
    let keyword_name : Option (List Char) :=
      match previous_node with
      | some p =>
        if p.ntype == "text" then kwSearch (p.text.getD "").data else none
      | none => none
    _append_parsed_ref issue (some m.slug) m.issue_number keyword_name

/-- The node types skipped entirely by the walker. -/
def OPAQUE_TYPES : List String :=
  ["codespan", "inline_html", "block_code", "block_html"]

/-- `if text := node.get("text"): _parse_text(issue, text)`: the text of a
node is scanned only when present and non-empty (Python truthiness). -/
def _parse_node_text (issue : ParsedIssue) (txt : Option String) : Option ParsedIssue :=
  match txt with
  | some t => if t.isEmpty then some issue else _parse_text issue t.data
  | none => some issue

/-- The loop body of `_parse_children` over one sibling list.  `isFirst`
is true exactly when the current node is at index 0.  In the source the
link branch is
`_parse_link(issue, previous_node=nodes[idx] if idx else None, node=node)`,
and `nodes[idx]` is the node at the *current* loop index, i.e. `node`
itself; this is embedded verbatim.  The children of a node are recursed
into only when non-empty (Python truthiness of `node.get("children")`). -/
def _parse_children_go (issue : ParsedIssue) (isFirst : Bool) :
    List Node → Option ParsedIssue
  | [] => some issue
  | Node.mk ntype txt lnk cs :: rest =>
    if OPAQUE_TYPES.contains ntype then
      _parse_children_go issue false rest
    else if ntype == "link" then
      match _parse_link issue
          (if isFirst then none else some (Node.mk ntype txt lnk cs))
          (Node.mk ntype txt lnk cs) with
      | none => none
      | some issue1 => _parse_children_go issue1 false rest
    else
      match _parse_node_text issue txt with
      | none => none
      | some issue1 =>
        match (if cs.isEmpty then some issue1 else _parse_children_go issue1 true cs) with
        | none => none
        | some issue2 => _parse_children_go issue2 false rest
  termination_by l => sizeOf l

/-- `_parse_children(issue, nodes)`. -/
def _parse_children (issue : ParsedIssue) (nodes : List Node) : Option ParsedIssue :=
  _parse_children_go issue true nodes

/-- `parse_issue_body`, taking the markdown node tree that the external
markdown library produced from the body (spec §2 data flow).  `none`
models an uncaught `KeyError`. -/
def parse_issue_body (nodes : List Node) : Option ParsedIssue :=
  _parse_children ParsedIssue.init nodes

/-- Markdown conversion for the concrete single-line example bodies of the
spec.  Modelled from the spec: the conversion itself is an external
collaborator (spec §1/§2, "already rendered into a markdown node tree";
the source calls `mistune`), and for a plain single-line body with no
markup it produces one paragraph node whose single child is a text node
carrying the body verbatim. -/
def markdown_plain (body : String) : List Node :=
  [.mk "paragraph" none "" [.mk "text" (some body) "" []]]

/-- Parse a plain single-line body (markdown conversion as in
`markdown_plain`). -/
def parse_plain_body (body : String) : Option ParsedIssue :=
  parse_issue_body (markdown_plain body)

/-! ## Specification-side predicates -/

/-- A well-formed slug: exactly two non-empty segments of word
characters, hyphens and dots, separated by exactly one `/`. -/
def validSlug (s : String) : Bool :=
  let a := s.data.takeWhile isSlugChar
  match s.data.dropWhile isSlugChar with
  | '/' :: b => !a.isEmpty && !b.isEmpty && b.all isSlugChar
  | _ => false

/-- Slug well-formedness of one fragment: if it has a `slug` attribute and
that slug is not `None`, the slug is well-formed. -/
def ParsedIssueFragment.slugOk (f : ParsedIssueFragment) : Bool :=
  match f.slugOf with
  | some s => validSlug s
  | none => true

/-- The list `actions[a]` of a result (`KeyError` read as the empty
list, which by the key-set invariant never actually happens for a
configured name). -/
def actionsGet (pi : ParsedIssue) (a : String) : List ParsedIssueFragment :=
  (List.lookup a pi.actions).getD []

/-- Proof obligations carried by one auto-reference match: a captured
keyword always resolves in `KEYWORDS`, and a captured slug is
well-formed. -/
def AutoRefOk (m : AutoRefMatch) : Prop :=
  (∀ kw, m.keyword_name = some kw →
    List.lookup (kw.map Char.toLower) KEYWORD_TABLE = some "close")
  ∧ (∀ sl, m.slug = some sl → validSlug (String.mk sl) = true)

/-- Proof obligations of one `TEXT_RE` match. -/
def RawMatchOk : RawMatch → Prop
  | .autoRef m => AutoRefOk m
  | .mention _ => True

/-- The well-formedness invariant every `ParsedIssue` built by the parser
satisfies: the single configured action key, the count relation between
the views, the filter relations, and slug well-formedness of every
fragment. -/
def Inv (pi : ParsedIssue) : Prop :=
  (∃ l, pi.actions = [("close", l)]
    ∧ pi.refs_and_actions.length = pi.refs.length + l.length)
  ∧ pi.fragments.filter ParsedIssueFragment.isRefOrAction = pi.refs_and_actions
  ∧ pi.fragments.filter ParsedIssueFragment.isMentionFragment = pi.mentions
  ∧ ∀ f ∈ pi.fragments, f.slugOk = true

/-! ## Lemmas about the scanner -/

theorem runSplits_sound {p : Char → Bool} :
    ∀ {s a r : List Char}, (a, r) ∈ runSplits p s →
      a ≠ [] ∧ a.all p = true ∧ s = a ++ r := by
  intro s
  induction s with
  | nil => intro a r h; simp [runSplits] at h
  | cons c rest ih =>
    intro a r h
    simp only [runSplits] at h
    by_cases hp : p c
    · rw [if_pos hp] at h
      rcases List.mem_append.1 h with h1 | h1
      · rcases List.mem_map.1 h1 with ⟨q, hq, heq⟩
        obtain ⟨h2, h3, h4⟩ := ih hq
        cases heq
        refine ⟨by simp, ?_, by simp [h4]⟩
        simp [List.all_cons, hp, h3]
      · simp only [List.mem_singleton, Prod.mk.injEq] at h1
        obtain ⟨rfl, rfl⟩ := h1
        exact ⟨by simp, by simp [hp], rfl⟩
    · rw [if_neg hp] at h
      simp at h

theorem ciPrefix_toLower :
    ∀ {pat s con r : List Char}, ciPrefix pat s = some (con, r) →
      con.map Char.toLower = pat.map Char.toLower := by
  intro pat
  induction pat with
  | nil =>
    intro s con r h
    simp only [ciPrefix, Option.some.injEq, Prod.mk.injEq] at h
    obtain ⟨rfl, rfl⟩ := h
    rfl
  | cons k ks ih =>
    intro s con r h
    cases s with
    | nil => simp [ciPrefix] at h
    | cons c cs =>
      simp only [ciPrefix] at h
      by_cases hc : c.toLower == k.toLower
      · rw [if_pos hc] at h
        cases hm : ciPrefix ks cs with
        | none => rw [hm] at h; simp at h
        | some q =>
          rw [hm] at h
          simp only [Option.map_some', Option.some.injEq, Prod.mk.injEq] at h
          obtain ⟨rfl, rfl⟩ := h
          simp only [List.map_cons]
          rw [eq_of_beq hc, ih (by rw [hm])]
      · rw [if_neg hc] at h; simp at h

theorem keyword_table_fact :
    ∀ q ∈ KEYWORD_TABLE,
      q.1.map Char.toLower = q.1 ∧ List.lookup q.1 KEYWORD_TABLE = some "close" := by
  decide

theorem keywordAltCandidates_lookup {s kw r : List Char}
    (h : (kw, r) ∈ keywordAltCandidates s) :
    List.lookup (kw.map Char.toLower) KEYWORD_TABLE = some "close" := by
  rcases List.mem_flatMap.1 h with ⟨pat, hpat, hmem⟩
  rcases Option.mem_toList.1 hmem with hsome
  have hlow := ciPrefix_toLower hsome
  rcases List.mem_map.1 hpat with ⟨q, hq, rfl⟩
  obtain ⟨hfix, hlook⟩ := keyword_table_fact q hq
  rw [hlow, hfix]
  exact hlook

theorem keywordCandidates_lookup {s kw r : List Char}
    (h : (kw, r) ∈ keywordCandidates s) :
    List.lookup (kw.map Char.toLower) KEYWORD_TABLE = some "close" := by
  rcases List.mem_flatMap.1 h with ⟨p, hp, hmem⟩
  rcases List.mem_map.1 hmem with ⟨r2, _, heq⟩
  obtain ⟨rfl, rfl⟩ : kw = p.1 ∧ r = r2 := by
    cases heq; exact ⟨rfl, rfl⟩
  exact @keywordAltCandidates_lookup s p.1 p.2 (by simpa using hp)

theorem takeWhile_all_append {p : Char → Bool} {c : Char} (hc : p c = false) :
    ∀ {a : List Char}, a.all p = true → ∀ b : List Char,
      (a ++ c :: b).takeWhile p = a ∧ (a ++ c :: b).dropWhile p = c :: b := by
  intro a
  induction a with
  | nil => intro _ b; simp [List.takeWhile, List.dropWhile, hc]
  | cons x xs ih =>
    intro hall b
    simp only [List.all_cons, Bool.and_eq_true] at hall
    obtain ⟨hx, hxs⟩ := hall
    obtain ⟨h1, h2⟩ := ih hxs b
    simp [List.takeWhile, List.dropWhile, hx, h1, h2]

theorem slugCandidates_valid {s sl r : List Char}
    (h : (sl, r) ∈ slugCandidates s) : validSlug (String.mk sl) = true := by
  rcases List.mem_flatMap.1 h with ⟨p, hp, hmem⟩
  obtain ⟨ha, hall, -⟩ := runSplits_sound hp
  rcases hm : p.2 with - | ⟨c, s2⟩
  · rw [hm] at hmem; simp at hmem
  · rw [hm] at hmem
    by_cases hc : c = '/'
    · subst hc
      simp only at hmem
      rcases List.mem_map.1 hmem with ⟨q, hq, heq⟩
      obtain ⟨hb, hballl, -⟩ := runSplits_sound hq
      obtain ⟨rfl, rfl⟩ : sl = p.1 ++ '/' :: q.1 ∧ r = q.2 := by
        cases heq; exact ⟨rfl, rfl⟩
      have hslash : isSlugChar '/' = false := by decide
      obtain ⟨ht, hd⟩ := takeWhile_all_append hslash hall q.1
      simp only [validSlug, ht, hd]
      simp [ha, hb, hballl]
    · cases c
      simp_all

theorem head_opt_mem {α : Type} {l : List α} {a : α} (h : l.head? = some a) : a ∈ l := by
  cases l with
  | nil => simp at h
  | cons x t =>
    simp only [List.head?_cons, Option.some.injEq] at h
    subst h
    exact List.mem_cons_self x t

theorem urlBranchCandidates_slug {s : List Char} {q : Option (List Char) × List Char}
    (h : q ∈ urlBranchCandidates s) :
    ∀ sl, q.1 = some sl → validSlug (String.mk sl) = true := by
  intro sl hsl
  rcases List.mem_flatMap.1 h with ⟨s1, -, h1⟩
  rcases List.mem_flatMap.1 h1 with ⟨p, hp, h2⟩
  rcases hm : p.2 with - | ⟨c, s3⟩
  · rw [hm] at h2; simp at h2
  · rw [hm] at h2
    by_cases hc : c = '/'
    · subst hc
      simp only at h2
      rcases List.mem_map.1 h2 with ⟨s4, -, heq⟩
      have hq1 : q.1 = some p.1 := by rw [← heq]
      rw [hq1] at hsl
      cases hsl
      exact slugCandidates_valid hp
    · cases c
      simp_all

theorem hashBranchCandidates_slug {s : List Char} {q : Option (List Char) × List Char}
    (h : q ∈ hashBranchCandidates s) :
    ∀ sl, q.1 = some sl → validSlug (String.mk sl) = true := by
  intro sl hsl
  rcases List.mem_flatMap.1 h with ⟨p, hp, h1⟩
  rcases List.mem_map.1 h1 with ⟨s2, -, heq⟩
  have hq1 : q.1 = p.1 := by rw [← heq]
  rw [hq1] at hsl
  rcases List.mem_append.1 hp with h2 | h2
  · rcases List.mem_map.1 h2 with ⟨p0, hp0, heq0⟩
    have hp1 : p.1 = some p0.1 := by rw [← heq0]
    rw [hp1] at hsl
    cases hsl
    exact slugCandidates_valid (by simpa using hp0)
  · simp only [List.mem_singleton] at h2
    subst h2
    simp at hsl

theorem prefixCandidates_slug {s : List Char} {q : Option (List Char) × List Char}
    (h : q ∈ prefixCandidates s) :
    ∀ sl, q.1 = some sl → validSlug (String.mk sl) = true := by
  rcases List.mem_append.1 h with h1 | h1
  · exact urlBranchCandidates_slug h1
  · exact hashBranchCandidates_slug h1

theorem keywordOptCandidates_lookup {s : List Char} {q : Option (List Char) × List Char}
    (h : q ∈ keywordOptCandidates s) :
    ∀ kw, q.1 = some kw →
      List.lookup (kw.map Char.toLower) KEYWORD_TABLE = some "close" := by
  intro kw hkw
  rcases List.mem_append.1 h with h1 | h1
  · rcases List.mem_map.1 h1 with ⟨p, hp, heq⟩
    have hq1 : q.1 = some p.1 := by rw [← heq]
    rw [hq1] at hkw
    cases hkw
    exact keywordCandidates_lookup (by simpa using hp)
  · simp only [List.mem_singleton] at h1
    subst h1
    simp at hkw

theorem autoRefCandidates_ok {s : List Char} {m : AutoRefMatch} {r : List Char}
    (h : (m, r) ∈ autoRefCandidates s) : AutoRefOk m := by
  rcases List.mem_flatMap.1 h with ⟨kq, hkq, h1⟩
  rcases List.mem_flatMap.1 h1 with ⟨sq, hsq, h2⟩
  rcases List.mem_filterMap.1 h2 with ⟨dq, -, hif⟩
  by_cases hw : noWordAhead dq.2 = true
  · rw [if_pos hw] at hif
    simp only [Option.some.injEq, Prod.mk.injEq] at hif
    obtain ⟨rfl, -⟩ := hif
    exact ⟨keywordOptCandidates_lookup hkq, prefixCandidates_slug hsq⟩
  · rw [if_neg hw] at hif
    simp at hif

theorem mentionCandidates_ok {s : List Char} {m : RawMatch} {r : List Char}
    (h : (m, r) ∈ mentionCandidates s) : RawMatchOk m := by
  cases s with
  | nil => simp [mentionCandidates] at h
  | cons c rest =>
    by_cases hc : c = '@'
    · subst hc
      simp only [mentionCandidates] at h
      rcases List.mem_map.1 h with ⟨q, -, heq⟩
      injection heq with hm hr
      subst hm
      trivial
    · cases c
      simp_all [mentionCandidates, RawMatchOk]

theorem textMatchCandidates_ok {b : Bool} {s : List Char} {m : RawMatch} {r : List Char}
    (h : (m, r) ∈ textMatchCandidates b s) : RawMatchOk m := by
  rcases List.mem_flatMap.1 h with ⟨s1, -, h1⟩
  rcases List.mem_append.1 h1 with h2 | h2
  · rcases List.mem_map.1 h2 with ⟨p, hp, heq⟩
    injection heq with hm hr
    subst hm
    exact @autoRefCandidates_ok s1 p.1 p.2 (by simpa using hp)
  · exact mentionCandidates_ok h2

theorem finditerGo_ok :
    ∀ (fuel : Nat) (b : Bool) (s : List Char) (m : RawMatch),
      m ∈ finditerGo fuel b s → RawMatchOk m := by
  intro fuel
  induction fuel with
  | zero => intro b s m h; simp [finditerGo] at h
  | succ n ih =>
    intro b s m h
    cases s with
    | nil => simp [finditerGo] at h
    | cons c rest =>
      rw [finditerGo] at h
      rcases hh : (textMatchCandidates b (c :: rest)).head? with - | ⟨m0, rest'⟩
      · rw [hh] at h
        exact ih _ _ _ h
      · rw [hh] at h
        simp only [List.mem_cons] at h
        rcases h with rfl | h
        · exact textMatchCandidates_ok (head_opt_mem hh)
        · exact ih _ _ _ h

theorem finditer_ok {s : List Char} {m : RawMatch} (h : m ∈ finditer s) :
    RawMatchOk m :=
  finditerGo_ok _ _ _ _ h

theorem issueUrlCandidates_valid {s : List Char} {m : IssueUrlMatch}
    (h : m ∈ issueUrlCandidates s) : validSlug (String.mk m.slug) = true := by
  rcases List.mem_flatMap.1 h with ⟨s1, -, h1⟩
  rcases List.mem_flatMap.1 h1 with ⟨p, hp, h2⟩
  rcases hm : p.2 with - | ⟨c, s3⟩
  · rw [hm] at h2; simp at h2
  · rw [hm] at h2
    by_cases hc : c = '/'
    · subst hc
      simp only at h2
      rcases List.mem_flatMap.1 h2 with ⟨s4, -, h3⟩
      rcases List.mem_filterMap.1 h3 with ⟨dq, -, hif⟩
      by_cases hw : noWordAhead dq.2 = true
      · rw [if_pos hw] at hif
        simp only [Option.some.injEq] at hif
        subst hif
        exact slugCandidates_valid hp
      · rw [if_neg hw] at hif
        simp at hif
    · cases c
      simp_all

theorem issueUrlMatch_valid {s : List Char} {m : IssueUrlMatch}
    (h : issueUrlMatch s = some m) : validSlug (String.mk m.slug) = true :=
  issueUrlCandidates_valid (head_opt_mem h)

theorem kwSearchAt_lookup {b : Bool} {s kw : List Char}
    (h : kwSearchAt b s = some kw) :
    List.lookup (kw.map Char.toLower) KEYWORD_TABLE = some "close" := by
  have hmem := head_opt_mem h
  rcases List.mem_flatMap.1 hmem with ⟨s1, -, h1⟩
  rcases List.mem_filterMap.1 h1 with ⟨p, hp, hif⟩
  by_cases he : endAnchor p.2 = true
  · rw [if_pos he] at hif
    simp only [Option.some.injEq] at hif
    subst hif
    exact keywordCandidates_lookup (by simpa using hp)
  · rw [if_neg he] at hif
    simp at hif

theorem kwSearchGo_lookup :
    ∀ (s : List Char) (b : Bool) (kw : List Char), kwSearchGo b s = some kw →
      List.lookup (kw.map Char.toLower) KEYWORD_TABLE = some "close" := by
  intro s
  induction s with
  | nil => intro b kw h; exact kwSearchAt_lookup h
  | cons c rest ih =>
    intro b kw h
    rw [kwSearchGo] at h
    rcases ha : kwSearchAt b (c :: rest) with - | kw0
    · rw [ha] at h
      exact ih _ _ h
    · rw [ha] at h
      simp only [Option.some.injEq] at h
      subst h
      exact kwSearchAt_lookup ha

theorem kwSearch_lookup {s kw : List Char} (h : kwSearch s = some kw) :
    List.lookup (kw.map Char.toLower) KEYWORD_TABLE = some "close" :=
  kwSearchGo_lookup _ _ _ h

/-! ## Lemmas about the result builder -/

theorem length_filter_partition (l : List ParsedIssueFragment) :
    l.length = (l.filter ParsedIssueFragment.isRefOrAction).length
      + (l.filter ParsedIssueFragment.isMentionFragment).length := by
  induction l with
  | nil => rfl
  | cons f rest ih =>
    cases f with
    | ref s n =>
      simp only [List.filter_cons, List.length_cons, ih]
      simp [ParsedIssueFragment.isRefOrAction, ParsedIssueFragment.isMentionFragment]
      omega
    | action s n a =>
      simp only [List.filter_cons, List.length_cons, ih]
      simp [ParsedIssueFragment.isRefOrAction, ParsedIssueFragment.isMentionFragment]
      omega
    | mention u =>
      simp only [List.filter_cons, List.length_cons, ih]
      simp [ParsedIssueFragment.isRefOrAction, ParsedIssueFragment.isMentionFragment]
      omega

theorem Inv_init : Inv ParsedIssue.init := by
  refine ⟨⟨[], rfl, rfl⟩, rfl, rfl, ?_⟩
  intro f hf
  simp [ParsedIssue.init] at hf

theorem append_parsed_ref_inv {issue : ParsedIssue} {slug : Option (List Char)}
    {digits : List Char} {kw : Option (List Char)}
    (hinv : Inv issue)
    (hkw : ∀ k, kw = some k →
      List.lookup (k.map Char.toLower) KEYWORD_TABLE = some "close")
    (hsl : ∀ sl, slug = some sl → validSlug (String.mk sl) = true) :
    ∃ pi', _append_parsed_ref issue slug digits kw = some pi' ∧ Inv pi' := by
  obtain ⟨⟨l, hact, hcount⟩, hfr, hfm, hslugs⟩ := hinv
  have hslug_ok : ∀ (s : Option String),
      s = slug.map String.mk →
      (match s with | some str => validSlug str | none => true) = true := by
    intro s hs
    cases hslug : slug with
    | none => rw [hslug] at hs; simp at hs; simp [hs]
    | some sl =>
      rw [hslug] at hs
      simp only [Option.map_some'] at hs
      subst hs
      exact hsl sl hslug
  cases kw with
  | none =>
    refine ⟨_, rfl, ?_⟩
    refine ⟨⟨l, hact, ?_⟩, ?_, ?_, ?_⟩
    · simp only [List.length_append, List.length_cons, List.length_nil]
      omega
    · simp only [List.filter_append, hfr]
      simp [ParsedIssueFragment.isRefOrAction]
    · simp only [List.filter_append, hfm]
      simp [ParsedIssueFragment.isMentionFragment]
    · intro f hf
      rcases List.mem_append.1 hf with h | h
      · exact hslugs f h
      · simp only [List.mem_singleton] at h
        subst h
        simp only [ParsedIssueFragment.slugOk, ParsedIssueFragment.slugOf]
        exact hslug_ok _ rfl
  | some k =>
    have hlook := hkw k rfl
    simp only [_append_parsed_ref, hlook, hact, appendAction]
    simp only [beq_self_eq_true, if_pos]
    refine ⟨_, rfl, ?_⟩
    refine ⟨⟨l ++ [.action (slug.map String.mk) (digitsToNat digits) "close"], rfl, ?_⟩,
      ?_, ?_, ?_⟩
    · simp only [List.length_append, List.length_cons, List.length_nil]
      omega
    · simp only [List.filter_append, hfr]
      simp [ParsedIssueFragment.isRefOrAction]
    · simp only [List.filter_append, hfm]
      simp [ParsedIssueFragment.isMentionFragment]
    · intro f hf
      rcases List.mem_append.1 hf with h | h
      · exact hslugs f h
      · simp only [List.mem_singleton] at h
        subst h
        simp only [ParsedIssueFragment.slugOk, ParsedIssueFragment.slugOf]
        exact hslug_ok _ rfl

theorem parse_text_step_inv {issue : ParsedIssue} {m : RawMatch}
    (hinv : Inv issue) (hok : RawMatchOk m) :
    ∃ pi', _parse_text_step issue m = some pi' ∧ Inv pi' := by
  obtain ⟨⟨l, hact, hcount⟩, hfr, hfm, hslugs⟩ := hinv
  cases m with
  | mention username =>
    refine ⟨_, rfl, ?_⟩
    refine ⟨⟨l, hact, ?_⟩, ?_, ?_, ?_⟩
    · simpa using hcount
    · simp only [List.filter_append, hfr]
      simp [ParsedIssueFragment.isRefOrAction]
    · simp only [List.filter_append, hfm]
      simp [ParsedIssueFragment.isMentionFragment]
    · intro f hf
      rcases List.mem_append.1 hf with h | h
      · exact hslugs f h
      · simp only [List.mem_singleton] at h
        subst h
        rfl
  | autoRef a =>
    obtain ⟨hkw, hsl⟩ := hok
    exact append_parsed_ref_inv ⟨⟨l, hact, hcount⟩, hfr, hfm, hslugs⟩ hkw hsl

theorem foldlM_step_inv :
    ∀ (ms : List RawMatch), (∀ m ∈ ms, RawMatchOk m) →
      ∀ issue, Inv issue →
        ∃ pi', List.foldlM _parse_text_step issue ms = some pi' ∧ Inv pi' := by
  intro ms
  induction ms with
  | nil =>
    intro _ issue hinv
    exact ⟨issue, rfl, hinv⟩
  | cons m rest ih =>
    intro hok issue hinv
    obtain ⟨pi1, hstep, hinv1⟩ :=
      parse_text_step_inv hinv (hok m (List.mem_cons_self m rest))
    obtain ⟨pi2, hrest, hinv2⟩ :=
      ih (fun x hx => hok x (List.mem_cons_of_mem m hx)) pi1 hinv1
    refine ⟨pi2, ?_, hinv2⟩
    rw [List.foldlM_cons, hstep]
    exact hrest

theorem parse_text_inv {issue : ParsedIssue} {t : List Char} (hinv : Inv issue) :
    ∃ pi', _parse_text issue t = some pi' ∧ Inv pi' :=
  foldlM_step_inv (finditer t) (fun _ hm => finditer_ok hm) issue hinv

theorem parse_link_inv {issue : ParsedIssue} {prev : Option Node} {node : Node}
    (hinv : Inv issue) :
    ∃ pi', _parse_link issue prev node = some pi' ∧ Inv pi' := by
  rw [_parse_link.eq_def]
  cases hm : issueUrlMatch node.link.data with
  | none => exact ⟨issue, rfl, hinv⟩
  | some m =>
    apply append_parsed_ref_inv hinv
    · intro k hk
      rcases hp : prev with - | p
      · rw [hp] at hk; simp at hk
      · rw [hp] at hk
        have hk2 : (if (p.ntype == "text") = true then
            kwSearch (p.text.getD "").data else none) = some k := hk
        by_cases ht : p.ntype == "text"
        · rw [if_pos ht] at hk2
          exact kwSearch_lookup hk2
        · rw [if_neg ht] at hk2; simp at hk2
    · intro sl hsl
      simp only [Option.some.injEq] at hsl
      subst hsl
      exact issueUrlMatch_valid hm

theorem parse_children_go_inv :
    ∀ (n : Nat) (l : List Node), sizeOf l < n →
      ∀ (issue : ParsedIssue) (b : Bool), Inv issue →
        ∃ pi, _parse_children_go issue b l = some pi ∧ Inv pi := by
  intro n
  induction n using Nat.strong_induction_on with
  | _ n ih =>
    intro l hl issue b hinv
    cases l with
    | nil =>
      refine ⟨issue, ?_, hinv⟩
      simp [_parse_children_go]
    | cons node rest =>
      obtain ⟨ntype, txt, lnk, cs⟩ := node
      have hsz_rest : sizeOf rest < sizeOf (Node.mk ntype txt lnk cs :: rest) := by
        simp only [List.cons.sizeOf_spec, Node.mk.sizeOf_spec]
        omega
      have hsz_cs : sizeOf cs < sizeOf (Node.mk ntype txt lnk cs :: rest) := by
        simp only [List.cons.sizeOf_spec, Node.mk.sizeOf_spec]
        omega
      simp only [_parse_children_go]
      by_cases hop : OPAQUE_TYPES.contains ntype
      · rw [if_pos hop]
        exact ih (sizeOf (Node.mk ntype txt lnk cs :: rest)) hl rest hsz_rest issue false hinv
      · rw [if_neg hop]
        by_cases hlk : ntype == "link"
        · rw [if_pos hlk]
          obtain ⟨pi1, hlink, hinv1⟩ :=
            @parse_link_inv issue
              (if b = true then none else some (Node.mk ntype txt lnk cs))
              (Node.mk ntype txt lnk cs) hinv
          rw [hlink]
          exact ih (sizeOf (Node.mk ntype txt lnk cs :: rest)) hl rest hsz_rest pi1 false hinv1
        · rw [if_neg hlk]
          obtain ⟨i1, hstep1, hinv1⟩ :
              ∃ i1, _parse_node_text issue txt = some i1 ∧ Inv i1 := by
            cases txt with
            | none => exact ⟨issue, rfl, hinv⟩
            | some t =>
              by_cases he : t.isEmpty
              · refine ⟨issue, ?_, hinv⟩
                simp [_parse_node_text, he]
              · obtain ⟨i1, h1, hi1⟩ := @parse_text_inv issue t.data hinv
                refine ⟨i1, ?_, hi1⟩
                simp [_parse_node_text, he, h1]
          rw [hstep1]
          obtain ⟨i2, hstep2, hinv2⟩ :
              ∃ i2, (if cs.isEmpty then some i1 else _parse_children_go i1 true cs)
                = some i2 ∧ Inv i2 := by
            by_cases hcs : cs.isEmpty
            · refine ⟨i1, ?_, hinv1⟩
              simp [hcs]
            · obtain ⟨i2, h2, hi2⟩ := ih (sizeOf (Node.mk ntype txt lnk cs :: rest)) hl
                cs hsz_cs i1 true hinv1
              refine ⟨i2, ?_, hi2⟩
              simp [hcs, h2]
          obtain ⟨pi3, hpi3, hinv3⟩ :=
            ih (sizeOf (Node.mk ntype txt lnk cs :: rest)) hl rest hsz_rest i2 false hinv2
          refine ⟨pi3, ?_, hinv3⟩
          simp only [hstep2, hpi3]

theorem parse_issue_body_inv (nodes : List Node) :
    ∃ pi, parse_issue_body nodes = some pi ∧ Inv pi :=
  parse_children_go_inv (sizeOf nodes + 1) nodes (Nat.lt_succ_self _)
    ParsedIssue.init true Inv_init

theorem append_parsed_ref_fragments {issue : ParsedIssue} {slug : Option (List Char)}
    {digits : List Char} {kw : Option (List Char)} {pi' : ParsedIssue}
    (h : _append_parsed_ref issue slug digits kw = some pi') :
    ∀ f ∈ pi'.fragments,
      f ∈ issue.fragments ∨ f.slugOf = slug.map String.mk := by
  intro f hf
  cases kw with
  | none =>
    simp only [_append_parsed_ref, Option.some.injEq] at h
    subst h
    simp only at hf
    rcases List.mem_append.1 hf with h1 | h1
    · exact Or.inl h1
    · simp only [List.mem_singleton] at h1
      subst h1
      exact Or.inr rfl
  | some k =>
    simp only [_append_parsed_ref] at h
    split at h
    · simp at h
    · split at h
      · simp at h
      · simp only [Option.some.injEq] at h
        subst h
        simp only at hf
        rcases List.mem_append.1 hf with h1 | h1
        · exact Or.inl h1
        · simp only [List.mem_singleton] at h1
          subst h1
          exact Or.inr rfl

/-! ## The claims -/

/-- **C1** (code-behaviour theorem for the claim).  The claim: a plain-text
node whose text ends with a keyword plus delimiter (here `"Fixes: "`),
immediately followed by a link node whose target matches the full-URL rule
(`https://github.com/o/r/issues/7`), must produce exactly one
`Action{slug:"o/r", issue_number:7, action:"close"}`, and nothing from the
link's label.  The code instead files the match as a *plain Reference* with
no action: the walker passes `nodes[idx]` — the link node itself — as
`previous_node` instead of the preceding sibling `nodes[idx - 1]`, so the
`previous_node["type"] == "text"` test can never succeed and the keyword
lookback never fires.  This theorem evaluates the parser on the claim's
input and exhibits that behaviour (the label is indeed not scanned, but the
fragment is `Reference`, not `Action`). -/
theorem c1_link_lookback_code_behavior :
    parse_issue_body
      [.mk "text" (some "Fixes: ") "" [],
       .mk "link" none "https://github.com/o/r/issues/7"
         [.mk "text" (some "this issue") "" []]]
    = some { actions := [("close", [])],
             refs := [.ref (some "o/r") 7],
             refs_and_actions := [.ref (some "o/r") 7],
             mentions := [],
             fragments := [.ref (some "o/r") 7] } := by
  simp only [parse_issue_body, _parse_children, _parse_children_go]
  decide

/-- **C2**: for every input, the two count invariants hold:
`len(refs_and_actions) = len(refs) + Σ len(actions[a])` over the configured
action names, and `len(fragments) = len(refs_and_actions) + len(mentions)`. -/
theorem c2_count_invariants (nodes : List Node) (pi : ParsedIssue)
    (h : parse_issue_body nodes = some pi) :
    pi.refs_and_actions.length
      = pi.refs.length + (ACTION_NAMES.map fun a => (actionsGet pi a).length).sum
    ∧ pi.fragments.length = pi.refs_and_actions.length + pi.mentions.length := by
  obtain ⟨pi', hpi', hinv⟩ := parse_issue_body_inv nodes
  rw [h] at hpi'
  injection hpi' with hpi'
  subst hpi'
  obtain ⟨⟨l, hact, hcount⟩, hfr, hfm, -⟩ := hinv
  constructor
  · have hget : actionsGet pi "close" = l := by
      simp [actionsGet, hact, List.lookup]
    simp only [ACTION_NAMES, ACTIONS, List.map_cons, List.map_nil, List.sum_cons,
      List.sum_nil, hget]
    omega
  · rw [length_filter_partition pi.fragments, hfr, hfm]

/-- **C2** witness: the theorem applied to the parse of `"@alice fixes #9"`. -/
theorem c2_count_invariants_witness :
    (ParsedIssue.mk [("close", [.action none 9 "close"])] []
        [.action none 9 "close"] [.mention "alice"]
        [.mention "alice", .action none 9 "close"]).refs_and_actions.length
      = (ParsedIssue.mk [("close", [.action none 9 "close"])] []
          [.action none 9 "close"] [.mention "alice"]
          [.mention "alice", .action none 9 "close"]).refs.length
        + (ACTION_NAMES.map fun a =>
            (actionsGet (ParsedIssue.mk [("close", [.action none 9 "close"])] []
              [.action none 9 "close"] [.mention "alice"]
              [.mention "alice", .action none 9 "close"]) a).length).sum
    ∧ (ParsedIssue.mk [("close", [.action none 9 "close"])] []
        [.action none 9 "close"] [.mention "alice"]
        [.mention "alice", .action none 9 "close"]).fragments.length
      = (ParsedIssue.mk [("close", [.action none 9 "close"])] []
          [.action none 9 "close"] [.mention "alice"]
          [.mention "alice", .action none 9 "close"]).refs_and_actions.length
        + (ParsedIssue.mk [("close", [.action none 9 "close"])] []
            [.action none 9 "close"] [.mention "alice"]
            [.mention "alice", .action none 9 "close"]).mentions.length :=
  c2_count_invariants (markdown_plain "@alice fixes #9")
    (ParsedIssue.mk [("close", [.action none 9 "close"])] []
      [.action none 9 "close"] [.mention "alice"]
      [.mention "alice", .action none 9 "close"])
    (by simp only [parse_issue_body, _parse_children, _parse_children_go, markdown_plain]
        decide)

/-- **C3**: filtering `fragments` to reference/action-typed entries yields
`refs_and_actions` in order, filtering to mention-typed entries yields
`mentions` in order; and for `"@alice fixes #9"` the fragments are exactly
`[Mention("alice"), Action(9, "close")]` in that order. -/
theorem c3_filter_invariants :
    (∀ (nodes : List Node) (pi : ParsedIssue), parse_issue_body nodes = some pi →
      pi.fragments.filter ParsedIssueFragment.isRefOrAction = pi.refs_and_actions
      ∧ pi.fragments.filter ParsedIssueFragment.isMentionFragment = pi.mentions)
    ∧ (parse_plain_body "@alice fixes #9").map ParsedIssue.fragments
        = some [.mention "alice", .action none 9 "close"] := by
  constructor
  · intro nodes pi h
    obtain ⟨pi', hpi', hinv⟩ := parse_issue_body_inv nodes
    rw [h] at hpi'
    injection hpi' with hpi'
    subst hpi'
    obtain ⟨-, hfr, hfm, -⟩ := hinv
    exact ⟨hfr, hfm⟩
  · simp only [parse_plain_body, parse_issue_body, _parse_children,
      _parse_children_go, markdown_plain]
    decide

/-- **C3** witness: the filter equations at the result of parsing the
empty node list. -/
theorem c3_filter_invariants_witness :
    ParsedIssue.init.fragments.filter ParsedIssueFragment.isRefOrAction
      = ParsedIssue.init.refs_and_actions
    ∧ ParsedIssue.init.fragments.filter ParsedIssueFragment.isMentionFragment
      = ParsedIssue.init.mentions :=
  c3_filter_invariants.1 [] ParsedIssue.init
    (by simp [parse_issue_body, _parse_children, _parse_children_go])

/-- **C4**: the `actions` mapping of every returned `ParsedIssue` has
exactly the configured key set (in order), even when no match occurred. -/
theorem c4_actions_key_set (nodes : List Node) (pi : ParsedIssue)
    (h : parse_issue_body nodes = some pi) :
    pi.actions.map Prod.fst = ACTION_NAMES := by
  obtain ⟨pi', hpi', hinv⟩ := parse_issue_body_inv nodes
  rw [h] at hpi'
  injection hpi' with hpi'
  subst hpi'
  obtain ⟨⟨l, hact, -⟩, -, -, -⟩ := hinv
  rw [hact]
  rfl

/-- **C4** witness: the key set at the result of parsing
`"nothing here"` (no match occurred, all lists empty). -/
theorem c4_actions_key_set_witness :
    ParsedIssue.init.actions.map Prod.fst = ACTION_NAMES :=
  c4_actions_key_set (markdown_plain "nothing here") ParsedIssue.init
    (by simp only [parse_issue_body, _parse_children, _parse_children_go, markdown_plain]
        decide)

/-- **C5**: a matched auto-reference is filed as an `Action` exactly when a
keyword (with delimiter) precedes it, otherwise as a plain `Reference`:
`"Fixes #123"` yields exactly one `Action{issue_number:123, action:"close"}`
in `actions["close"]` and no plain refs; `"See #123"` yields exactly one
`Reference{issue_number:123}` in `refs` and empty `actions[...]` lists. -/
theorem c5_keyword_vs_plain_boundary :
    ((parse_plain_body "Fixes #123").map fun pi => (actionsGet pi "close", pi.refs))
      = some ([.action none 123 "close"], [])
    ∧ ((parse_plain_body "See #123").map fun pi =>
        (pi.refs, pi.actions.all fun p => p.2.isEmpty))
      = some ([.ref none 123], true) := by
  constructor
  · simp only [parse_plain_body, parse_issue_body, _parse_children,
      _parse_children_go, markdown_plain]
    decide
  · simp only [parse_plain_body, parse_issue_body, _parse_children,
      _parse_children_go, markdown_plain]
    decide

/-- **C6**: a digit run immediately followed by a word character is not an
issue number: `"#123abc"` produces no fragment at all, while `"#123."`
produces exactly one `Reference` with number 123. -/
theorem c6_word_boundary_rejection :
    ((parse_plain_body "#123abc").map ParsedIssue.fragments = some [])
    ∧ ((parse_plain_body "#123.").map ParsedIssue.fragments
        = some [.ref none 123]) := by
  constructor
  · simp only [parse_plain_body, parse_issue_body, _parse_children,
      _parse_children_go, markdown_plain]
    decide
  · simp only [parse_plain_body, parse_issue_body, _parse_children,
      _parse_children_go, markdown_plain]
    decide

/-- **C7**: opaque/verbatim nodes (`codespan`, `inline_html`, `block_code`,
`block_html`) contribute nothing: the walker's result on a sibling list
headed by such a node is the result on the tail — whatever the node's text
and children — and in particular a code span containing `fixes #1` yields
no fragment. -/
theorem c7_opaque_nodes_skipped :
    (∀ (issue : ParsedIssue) (b : Bool) (ntype : String) (txt : Option String)
        (lnk : String) (cs rest : List Node),
      OPAQUE_TYPES.contains ntype = true →
        _parse_children_go issue b (Node.mk ntype txt lnk cs :: rest)
          = _parse_children_go issue false rest)
    ∧ (parse_issue_body [.mk "codespan" (some "fixes #1") "" []]).map
        ParsedIssue.fragments = some [] := by
  constructor
  · intro issue b ntype txt lnk cs rest hop
    rw [_parse_children_go.eq_2, if_pos hop]
  · simp only [parse_issue_body, _parse_children, _parse_children_go]
    decide

/-- **C7** witness. -/
theorem c7_opaque_nodes_skipped_witness :
    OPAQUE_TYPES.contains "block_code" = true
    ∧ _parse_children_go ParsedIssue.init true
        [Node.mk "block_code" (some "fixes #1") "" []]
      = _parse_children_go ParsedIssue.init false [] :=
  ⟨by decide,
   c7_opaque_nodes_skipped.1 ParsedIssue.init true "block_code" (some "fixes #1")
     "" [] [] (by decide)⟩

/-- **C8**: keyword recognition is case-insensitive and the resolved action
name is invariant under case: `"FIXES #1"` and `"fixes #1"` produce
structurally equal results, with the single action fragment resolved to
`"close"`. -/
theorem c8_keyword_case_insensitive :
    parse_plain_body "FIXES #1" = parse_plain_body "fixes #1"
    ∧ (parse_plain_body "FIXES #1").map (fun pi => actionsGet pi "close")
      = some [.action none 1 "close"] := by
  constructor
  · simp only [parse_plain_body, parse_issue_body, _parse_children,
      _parse_children_go, markdown_plain]
    decide
  · simp only [parse_plain_body, parse_issue_body, _parse_children,
      _parse_children_go, markdown_plain]
    decide

/-- **C9**: whenever a match carries a keyword, the case-insensitive lookup
in the `KEYWORDS` inverse mapping succeeds — the `KeyError` branches
(modelled by `none`) are unreachable, for every input tree:
`parse_issue_body` always returns a result. -/
theorem c9_keyword_lookup_total (nodes : List Node) :
    (parse_issue_body nodes).isSome = true := by
  obtain ⟨pi, hpi, -⟩ := parse_issue_body_inv nodes
  rw [hpi]
  rfl

/-- **C10**: every `Reference`/`Action` fragment of every result whose slug
is not `None` carries a well-formed `owner/repo` slug (two non-empty
segments of word characters, hyphens and dots, separated by exactly one
`/`); and every fragment produced by the link handler has a non-`None`
(well-formed) slug. -/
theorem c10_slug_wellformed :
    (∀ (nodes : List Node) (pi : ParsedIssue), parse_issue_body nodes = some pi →
      ∀ f ∈ pi.fragments, ∀ s, f.slugOf = some s → validSlug s = true)
    ∧ (∀ (issue : ParsedIssue) (prev : Option Node) (node : Node)
        (pi' : ParsedIssue), _parse_link issue prev node = some pi' →
        ∀ f ∈ pi'.fragments, f ∈ issue.fragments ∨
          ((f.slugOf).isSome = true ∧ ∀ s, f.slugOf = some s → validSlug s = true)) := by
  constructor
  · intro nodes pi h f hf s hs
    obtain ⟨pi', hpi', hinv⟩ := parse_issue_body_inv nodes
    rw [h] at hpi'
    injection hpi' with hpi'
    subst hpi'
    obtain ⟨-, -, -, hslugs⟩ := hinv
    have hok := hslugs f hf
    rw [ParsedIssueFragment.slugOk, hs] at hok
    exact hok
  · intro issue prev node pi' h f hf
    rw [_parse_link.eq_def] at h
    cases hm : issueUrlMatch node.link.data with
    | none =>
      rw [hm] at h
      simp only [Option.some.injEq] at h
      subst h
      exact Or.inl hf
    | some m =>
      rw [hm] at h
      rcases append_parsed_ref_fragments h f hf with h1 | h1
      · exact Or.inl h1
      · refine Or.inr ⟨by rw [h1]; rfl, ?_⟩
        intro s hs
        rw [h1] at hs
        simp only [Option.map_some', Option.some.injEq] at hs
        subst hs
        exact issueUrlMatch_valid hm

/-- **C10** witness: both parts applied at concrete inputs — the slug of
the action parsed from `"Closes other/repo#45"`, and the fragment the link
handler files for `https://github.com/o/r/issues/7`. -/
theorem c10_slug_wellformed_witness :
    validSlug "other/repo" = true
    ∧ (ParsedIssueFragment.ref (some "o/r") 7 ∈ ParsedIssue.init.fragments
       ∨ ((ParsedIssueFragment.ref (some "o/r") 7).slugOf.isSome = true
          ∧ ∀ s, (ParsedIssueFragment.ref (some "o/r") 7).slugOf = some s →
              validSlug s = true)) :=
  ⟨c10_slug_wellformed.1 (markdown_plain "Closes other/repo#45")
     (ParsedIssue.mk [("close", [.action (some "other/repo") 45 "close"])] []
       [.action (some "other/repo") 45 "close"] []
       [.action (some "other/repo") 45 "close"])
     (by simp only [parse_issue_body, _parse_children, _parse_children_go, markdown_plain]
         decide)
     (.action (some "other/repo") 45 "close") (by decide) "other/repo" rfl,
   c10_slug_wellformed.2 ParsedIssue.init none
     (Node.mk "link" none "https://github.com/o/r/issues/7" [])
     (ParsedIssue.mk [("close", [])] [.ref (some "o/r") 7] [.ref (some "o/r") 7] []
       [.ref (some "o/r") 7])
     (by decide)
     (.ref (some "o/r") 7) (by decide)⟩

end RedBot
